import Mathlib

/-!
Shallow embedding of the concept-disambiguation engine of
`metadata_pipeline_torch_only.py`.

The embedding provider (`get_embedding`, wrapping the external BioBERT model)
is modelled as a parameter `embed : String → Option Vec`: it returns `some v`
when an embedding is produced and `none` on failure (the source catches the
exception and returns `None`).  Python dictionaries preserve insertion order,
so the ontology dictionary and the embedding cache are modelled as ordered
association lists.  Floating-point values are modelled as rationals (vector
components) and reals (similarity scores).
-/

/-- Embedding vectors: fixed-length sequences of floats, modelled as lists of
rationals. -/
abbrev Vec := List ℚ

/-- The embedding cache `ontology_embeddings`: an insertion-ordered dictionary
from canonical term to vector, modelled as an association list. -/
abbrev Cache := List (String × Vec)

/-- The ontology dictionary `ontology_terms`: canonical term to
(concept code, code system), insertion-ordered. -/
abbrev Ontology := List (String × (String × String))

/-- Dot product of two vectors; extra components of the longer vector are
ignored, matching componentwise products over the common length. -/
def dot (a b : Vec) : ℚ :=
  (List.zipWith (fun x y => x * y) a b).sum

/-- Cosine similarity between two vectors.  This models the external
`sklearn.metrics.pairwise.cosine_similarity` call at line 112 under the
contract stated in the spec (§4.3): `cos(a,b) = (a·b) / (‖a‖·‖b‖)`, and a
zero-norm operand makes the comparison fail for that pair (`none`) instead of
dividing by zero; the source wraps the call in `try/except` and skips a pair
whose comparison fails. -/
noncomputable def cosine_similarity (a b : Vec) : Option ℝ :=
  if dot a a = 0 ∨ dot b b = 0 then none
  else some ((dot a b : ℝ) / (Real.sqrt (dot a a : ℝ) * Real.sqrt (dot b b : ℝ)))

/-- Python dictionary assignment `d[k] = v`: overwrite in place when the key is
present (keeping its position), append otherwise. -/
def dictInsert (k : String) (v : Vec) (d : Cache) : Cache :=
  if d.any (fun p => p.1 = k) then d.map (fun p => if p.1 = k then (k, v) else p)
  else d ++ [(k, v)]

/-- The warm-up loop (lines 85-92): for each ontology term in order, call the
provider; on success store the vector under the term, on failure skip the term.
`init` is the cache state the loop starts from (`{}` at process start). -/
def build_ontology_embeddings (embed : String → Option Vec) (terms : List String)
    (init : Cache) : Cache :=
  terms.foldl (fun cache t =>
    match embed t with
    | some v => dictInsert t v cache
    | none => cache) init

/-- The warm-up loop instrumented with the list of texts passed to the
embedding provider, in call order. -/
def build_ontology_embeddings_traced (embed : String → Option Vec)
    (terms : List String) (init : Cache) : Cache × List String :=
  terms.foldl (fun acc t =>
    match embed t with
    | some v => (dictInsert t v acc.1, acc.2 ++ [t])
    | none => (acc.1, acc.2 ++ [t])) (init, [])

/-- Candidate text construction (line 103):
`term + " " + context if context else term`; the empty string is falsy in
Python. -/
def candidate_text (term context : String) : String :=
  if context = "" then term else term ++ " " ++ context

/-- The `similarities` dictionary (lines 109-116): for every `(term, vector)`
pair in the cache, in order, the cosine similarity with the candidate vector;
a pair whose comparison fails is skipped (`continue`). -/
noncomputable def similarities (cand : Vec) (cache : Cache) : List (String × ℝ) :=
  cache.filterMap (fun p => (cosine_similarity cand p.2).map (fun s => (p.1, s)))

/-- One comparison step of Python `max`: replace the running maximum only on a
strictly greater value, so among ties the earliest element wins. -/
noncomputable def maxStep (acc : Option (String × ℝ)) (p : String × ℝ) :
    Option (String × ℝ) :=
  match acc with
  | none => some p
  | some q => if q.2 < p.2 then some p else some q

/-- Python `max(xs, key=value)` over an insertion-ordered dictionary (line 122):
returns the first key attaining the maximum value, `none` on an empty
dictionary (`max` of an empty dict raises, but line 118 guards that case). -/
noncomputable def argmaxFirst (l : List (String × ℝ)) : Option (String × ℝ) :=
  l.foldl maxStep none

/-- The ranking step of lines 109-122: the `best_match` term together with its
score `similarities[best_match]`. -/
noncomputable def best_match (cand : Vec) (cache : Cache) : Option (String × ℝ) :=
  argmaxFirst (similarities cand cache)

/-- The engine `disambiguate_entity` (lines 96-126).  Returns the Python
triple: three populated components on success, `(None, None, None)` on every
failure path (empty cache line 98-100, embedding failure line 106-107, no
similarities line 118-120, and a lookup error caught by the outer `except`). -/
noncomputable def disambiguate_entity (embed : String → Option Vec)
    (ontology_terms : Ontology) (ontology_embeddings : Cache)
    (term context : String) : Option String × Option String × Option String :=
  if ontology_embeddings = [] then (none, none, none)
  else
    match embed (candidate_text term context) with
    | none => (none, none, none)
    | some cand =>
      match best_match cand ontology_embeddings with
      | none => (none, none, none)
      | some (t, _) =>
        match ontology_terms.lookup t with
        | some cs => (some t, some cs.1, some cs.2)
        | none => (none, none, none)

/-! Basic facts about the dot product and cosine similarity. -/

theorem dot_self_nonneg (a : Vec) : 0 ≤ dot a a := by
  induction a with
  | nil => simp [dot]
  | cons x xs ih =>
    have : dot (x :: xs) (x :: xs) = x * x + dot xs xs := by
      simp [dot, List.zipWith]
    rw [this]
    exact add_nonneg (mul_self_nonneg x) ih

theorem zipWith_mul_sum (a b : Vec) :
    (List.zipWith (fun x y => x * y) a b).sum =
      ∑ i ∈ Finset.range (min a.length b.length), a.getD i 0 * b.getD i 0 := by
  induction a generalizing b with
  | nil => simp
  | cons x xs ih =>
    cases b with
    | nil => simp
    | cons y ys =>
      rw [List.zipWith_cons_cons, List.sum_cons, ih ys]
      rw [List.length_cons, List.length_cons, Nat.succ_min_succ, Finset.sum_range_succ']
      simp [add_comm]

theorem dot_sq_le (a b : Vec) : dot a b ^ 2 ≤ dot a a * dot b b := by
  have hcs := Finset.sum_mul_sq_le_sq_mul_sq (Finset.range (min a.length b.length))
      (fun i => a.getD i 0) (fun i => b.getD i 0)
  have ha : ∑ i ∈ Finset.range (min a.length b.length), a.getD i 0 ^ 2 ≤ dot a a := by
    rw [dot, zipWith_mul_sum, min_self]
    calc ∑ i ∈ Finset.range (min a.length b.length), a.getD i 0 ^ 2
        ≤ ∑ i ∈ Finset.range a.length, a.getD i 0 ^ 2 :=
          Finset.sum_le_sum_of_subset_of_nonneg
            (Finset.range_subset.mpr (min_le_left _ _))
            (fun i _ _ => sq_nonneg _)
      _ = ∑ i ∈ Finset.range a.length, a.getD i 0 * a.getD i 0 :=
          Finset.sum_congr rfl (fun i _ => sq (a.getD i 0))
  have hb : ∑ i ∈ Finset.range (min a.length b.length), b.getD i 0 ^ 2 ≤ dot b b := by
    rw [dot, zipWith_mul_sum, min_self]
    calc ∑ i ∈ Finset.range (min a.length b.length), b.getD i 0 ^ 2
        ≤ ∑ i ∈ Finset.range b.length, b.getD i 0 ^ 2 :=
          Finset.sum_le_sum_of_subset_of_nonneg
            (Finset.range_subset.mpr (min_le_right _ _))
            (fun i _ _ => sq_nonneg _)
      _ = ∑ i ∈ Finset.range b.length, b.getD i 0 * b.getD i 0 :=
          Finset.sum_congr rfl (fun i _ => sq (b.getD i 0))
  have hbnn : (0:ℚ) ≤ ∑ i ∈ Finset.range (min a.length b.length), b.getD i 0 ^ 2 :=
    Finset.sum_nonneg (fun i _ => sq_nonneg _)
  have hann : (0:ℚ) ≤ dot a a := dot_self_nonneg a
  calc dot a b ^ 2
      = (∑ i ∈ Finset.range (min a.length b.length), a.getD i 0 * b.getD i 0) ^ 2 := by
        rw [dot, zipWith_mul_sum]
    _ ≤ (∑ i ∈ Finset.range (min a.length b.length), a.getD i 0 ^ 2) *
          ∑ i ∈ Finset.range (min a.length b.length), b.getD i 0 ^ 2 := hcs
    _ ≤ dot a a * dot b b := mul_le_mul ha hb hbnn hann

theorem dot_le_sqrt_mul_sqrt (a b : Vec) :
    (dot a b : ℝ) ≤ Real.sqrt (dot a a : ℝ) * Real.sqrt (dot b b : ℝ) := by
  have hsq : (dot a b : ℝ) ^ 2 ≤ (dot a a : ℝ) * (dot b b : ℝ) := by
    exact_mod_cast dot_sq_le a b
  have hann : (0:ℝ) ≤ (dot a a : ℝ) := by exact_mod_cast dot_self_nonneg a
  calc (dot a b : ℝ)
      ≤ |(dot a b : ℝ)| := le_abs_self _
    _ = Real.sqrt ((dot a b : ℝ) ^ 2) := (Real.sqrt_sq_eq_abs _).symm
    _ ≤ Real.sqrt ((dot a a : ℝ) * (dot b b : ℝ)) := Real.sqrt_le_sqrt hsq
    _ = Real.sqrt (dot a a : ℝ) * Real.sqrt (dot b b : ℝ) := Real.sqrt_mul hann _

theorem dot_self_cast_pos (a : Vec) (h : dot a a ≠ 0) : (0:ℝ) < (dot a a : ℝ) := by
  have h1 : (0:ℚ) < dot a a := lt_of_le_of_ne (dot_self_nonneg a) (Ne.symm h)
  exact_mod_cast h1

theorem cosine_similarity_le_one (a b : Vec) (s : ℝ)
    (h : cosine_similarity a b = some s) : s ≤ 1 := by
  unfold cosine_similarity at h
  split at h
  · exact absurd h (by simp)
  · rename_i hc
    push_neg at hc
    have ha := dot_self_cast_pos a hc.1
    have hb := dot_self_cast_pos b hc.2
    have hden : (0:ℝ) < Real.sqrt (dot a a : ℝ) * Real.sqrt (dot b b : ℝ) :=
      mul_pos (Real.sqrt_pos.mpr ha) (Real.sqrt_pos.mpr hb)
    have hs : s = (dot a b : ℝ) / (Real.sqrt (dot a a : ℝ) * Real.sqrt (dot b b : ℝ)) :=
      (Option.some.inj h).symm
    rw [hs]
    exact (div_le_one hden).mpr (dot_le_sqrt_mul_sqrt a b)

theorem cosine_similarity_self (v : Vec) (h : dot v v ≠ 0) :
    cosine_similarity v v = some 1 := by
  unfold cosine_similarity
  rw [if_neg (by simp [h])]
  have hpos := dot_self_cast_pos v h
  rw [Real.mul_self_sqrt hpos.le, div_self hpos.ne']

/-! Facts about the first-maximum selection of Python `max`. -/

theorem foldl_maxStep_stay (l : List (String × ℝ)) (q : String × ℝ)
    (h : ∀ p ∈ l, p.2 ≤ q.2) : l.foldl maxStep (some q) = some q := by
  induction l with
  | nil => rfl
  | cons p ps ih =>
    rw [List.foldl_cons]
    have hq : ¬ q.2 < p.2 := not_lt.mpr (h p (List.mem_cons_self p ps))
    have hstep : maxStep (some q) p = some q := by simp [maxStep, hq]
    rw [hstep]
    exact ih (fun r hr => h r (List.mem_cons_of_mem p hr))

theorem foldl_maxStep_spec (l : List (String × ℝ)) (q : String × ℝ) :
    ∃ r, l.foldl maxStep (some q) = some r ∧ (r = q ∨ r ∈ l) ∧ q.2 ≤ r.2 ∧
      ∀ p ∈ l, p.2 ≤ r.2 := by
  induction l generalizing q with
  | nil => exact ⟨q, rfl, Or.inl rfl, le_refl _, by simp⟩
  | cons p ps ih =>
    rw [List.foldl_cons]
    by_cases hlt : q.2 < p.2
    · have hstep : maxStep (some q) p = some p := by simp [maxStep, hlt]
      rw [hstep]
      obtain ⟨r, hr1, hr2, hr3, hr4⟩ := ih p
      refine ⟨r, hr1, ?_, le_trans hlt.le hr3, ?_⟩
      · rcases hr2 with h1 | h1
        · exact Or.inr (h1 ▸ List.mem_cons_self p ps)
        · exact Or.inr (List.mem_cons_of_mem p h1)
      · intro x hx
        rcases List.mem_cons.mp hx with h1 | h1
        · exact h1 ▸ hr3
        · exact hr4 x h1
    · have hstep : maxStep (some q) p = some q := by simp [maxStep, hlt]
      rw [hstep]
      obtain ⟨r, hr1, hr2, hr3, hr4⟩ := ih q
      refine ⟨r, hr1, ?_, hr3, ?_⟩
      · rcases hr2 with h1 | h1
        · exact Or.inl h1
        · exact Or.inr (List.mem_cons_of_mem p h1)
      · intro x hx
        rcases List.mem_cons.mp hx with h1 | h1
        · exact h1 ▸ le_trans (not_lt.mp hlt) hr3
        · exact hr4 x h1

theorem argmaxFirst_spec (l : List (String × ℝ)) (r : String × ℝ)
    (h : argmaxFirst l = some r) : r ∈ l ∧ ∀ p ∈ l, p.2 ≤ r.2 := by
  cases l with
  | nil => exact absurd h (by simp [argmaxFirst])
  | cons p ps =>
    unfold argmaxFirst at h
    rw [List.foldl_cons] at h
    have hstep : maxStep none p = some p := rfl
    rw [hstep] at h
    obtain ⟨r', hr1, hr2, hr3, hr4⟩ := foldl_maxStep_spec ps p
    rw [hr1] at h
    have hre : r' = r := Option.some.inj h
    subst hre
    constructor
    · rcases hr2 with h1 | h1
      · exact h1 ▸ List.mem_cons_self p ps
      · exact List.mem_cons_of_mem p h1
    · intro x hx
      rcases List.mem_cons.mp hx with h1 | h1
      · exact h1 ▸ hr3
      · exact hr4 x h1

theorem argmaxFirst_ne_nil (l : List (String × ℝ)) (h : l ≠ []) :
    ∃ r, argmaxFirst l = some r := by
  cases l with
  | nil => exact absurd rfl h
  | cons p ps =>
    unfold argmaxFirst
    rw [List.foldl_cons]
    have hstep : maxStep none p = some p := rfl
    rw [hstep]
    obtain ⟨r, hr1, _, _, _⟩ := foldl_maxStep_spec ps p
    exact ⟨r, hr1⟩

theorem argmaxFirst_first (l1 : List (String × ℝ)) (p : String × ℝ)
    (l2 : List (String × ℝ)) (h1 : ∀ q ∈ l1, q.2 < p.2)
    (h2 : ∀ q ∈ l2, q.2 ≤ p.2) : argmaxFirst (l1 ++ p :: l2) = some p := by
  unfold argmaxFirst
  rw [List.foldl_append, List.foldl_cons]
  cases hcase : List.foldl maxStep none l1 with
  | none =>
    have hstep : maxStep none p = some p := rfl
    rw [hstep]
    exact foldl_maxStep_stay l2 p h2
  | some q =>
    have hq : q ∈ l1 ∧ ∀ x ∈ l1, x.2 ≤ q.2 := argmaxFirst_spec l1 q hcase
    have hlt : q.2 < p.2 := h1 q hq.1
    have hstep : maxStep (some q) p = some p := by simp [maxStep, hlt]
    rw [hstep]
    exact foldl_maxStep_stay l2 p h2

/-! Facts about the similarities dictionary. -/

theorem similarities_append (cand : Vec) (c1 c2 : Cache) :
    similarities cand (c1 ++ c2) = similarities cand c1 ++ similarities cand c2 := by
  simp [similarities, List.filterMap_append]

theorem similarities_cons_none (cand : Vec) (k : String) (v : Vec) (c : Cache)
    (h : cosine_similarity cand v = none) :
    similarities cand ((k, v) :: c) = similarities cand c := by
  simp [similarities, h]

theorem similarities_cons_some (cand : Vec) (k : String) (v : Vec) (c : Cache)
    (s : ℝ) (h : cosine_similarity cand v = some s) :
    similarities cand ((k, v) :: c) = (k, s) :: similarities cand c := by
  simp [similarities, h]

theorem mem_similarities (cand : Vec) (cache : Cache) (k : String) (s : ℝ) :
    (k, s) ∈ similarities cand cache ↔
      ∃ v, (k, v) ∈ cache ∧ cosine_similarity cand v = some s := by
  constructor
  · intro h
    obtain ⟨p, hp, hf⟩ := List.mem_filterMap.mp h
    obtain ⟨s', hs', heq⟩ := Option.map_eq_some'.mp hf
    have h1 : p.1 = k := congrArg Prod.fst heq
    have h2 : s' = s := congrArg Prod.snd heq
    exact ⟨p.2, by rw [← h1]; exact hp, by rw [← h2]; exact hs'⟩
  · intro ⟨v, hv, hc⟩
    exact List.mem_filterMap.mpr ⟨(k, v), hv, by simp [hc]⟩

theorem similarities_nil (cand : Vec) : similarities cand [] = [] := rfl

/-- C1: whenever the ranker selects a term from the cache, the selected score
equals the maximum over all (term, vector) pairs in the cache of the cosine
similarity with the candidate vector, and the returned term attains it. -/
theorem ranker_score_is_max (cand : Vec) (cache : Cache) (t : String) (s : ℝ)
    (_hne : cache ≠ []) (h : best_match cand cache = some (t, s)) :
    (∃ v, (t, v) ∈ cache ∧ cosine_similarity cand v = some s) ∧
      ∀ k v s', (k, v) ∈ cache → cosine_similarity cand v = some s' → s' ≤ s := by
  have hspec := argmaxFirst_spec (similarities cand cache) (t, s) h
  constructor
  · exact (mem_similarities cand cache t s).mp hspec.1
  · intro k v s' hkv hc
    exact hspec.2 (k, s') ((mem_similarities cand cache k s').mpr ⟨v, hkv, hc⟩)

theorem ranker_score_is_max_witness :
    (∃ v, ("A", v) ∈ ([("A", [(1:ℚ)])] : Cache) ∧
        cosine_similarity [(1:ℚ)] v = some 1) ∧
      ∀ k v s', (k, v) ∈ ([("A", [(1:ℚ)])] : Cache) →
        cosine_similarity [(1:ℚ)] v = some s' → s' ≤ 1 := by
  have hcos : cosine_similarity [(1:ℚ)] [(1:ℚ)] = some 1 :=
    cosine_similarity_self [(1:ℚ)] (by norm_num [dot])
  have hsims : similarities [(1:ℚ)] ([("A", [(1:ℚ)])] : Cache) = [("A", (1:ℝ))] := by
    rw [similarities_cons_some [(1:ℚ)] "A" [(1:ℚ)] [] 1 hcos]
    rfl
  have hbm : best_match [(1:ℚ)] ([("A", [(1:ℚ)])] : Cache) = some ("A", 1) := by
    unfold best_match
    rw [hsims]
    rfl
  exact ranker_score_is_max [(1:ℚ)] [("A", [(1:ℚ)])] "A" 1 (by simp) hbm

/-- C3: with an empty embedding cache, `disambiguate_entity` returns the
all-`None` triple (the `CacheEmpty` failure) for every term and context, and
never a matched term. -/
theorem disambiguate_empty_cache (embed : String → Option Vec)
    (ontology_terms : Ontology) (term context : String) :
    disambiguate_entity embed ontology_terms [] term context = (none, none, none) := by
  simp [disambiguate_entity]

/-- C4: if the embedding provider fails on the candidate text, the engine
returns the all-`None` triple (the `EmbeddingUnavailable` failure): no matched
term, no concept code, no code system. -/
theorem disambiguate_embedding_unavailable (embed : String → Option Vec)
    (ontology_terms : Ontology) (cache : Cache) (term context : String)
    (h : embed (candidate_text term context) = none) :
    disambiguate_entity embed ontology_terms cache term context = (none, none, none) := by
  simp [disambiguate_entity, h]

theorem disambiguate_embedding_unavailable_witness :
    disambiguate_entity (fun _ => none) [("Diabetes", ("44054006", "SNOMED CT"))]
      [("Diabetes", [(1:ℚ)])] "Diabetes" "" = (none, none, none) :=
  disambiguate_embedding_unavailable _ _ _ _ _ rfl

/-- C9: the embedded candidate text is the term followed by a single space and
the context when the context is non-empty, and exactly the term when the
context is empty. -/
theorem candidate_text_spec (term context : String) :
    (context = "" → candidate_text term context = term) ∧
      (context ≠ "" → candidate_text term context = term ++ " " ++ context) := by
  constructor
  · intro h
    simp [candidate_text, h]
  · intro h
    simp [candidate_text, h]

theorem candidate_text_spec_witness :
    candidate_text "Hypertension" "" = "Hypertension" ∧
      candidate_text "cold" "fever" = "cold fever" := by
  constructor
  · exact (candidate_text_spec "Hypertension" "").1 rfl
  · exact ((candidate_text_spec "cold" "fever").2 (by decide)).trans (by decide)

/-- C10: `disambiguate_entity` is total in the model and all-or-nothing: for
every input it returns either a fully populated success triple or exactly
`(None, None, None)`, never a partially populated result. -/
theorem disambiguate_entity_total (embed : String → Option Vec)
    (ontology_terms : Ontology) (cache : Cache) (term context : String) :
    (∃ t c s, disambiguate_entity embed ontology_terms cache term context =
        (some t, some c, some s)) ∨
      disambiguate_entity embed ontology_terms cache term context =
        (none, none, none) := by
  by_cases hc : cache = []
  · subst hc
    exact Or.inr (by simp [disambiguate_entity])
  · cases hemb : embed (candidate_text term context) with
    | none => exact Or.inr (by simp [disambiguate_entity, hc, hemb])
    | some cand =>
      cases hbm : best_match cand cache with
      | none => exact Or.inr (by simp [disambiguate_entity, hc, hemb, hbm])
      | some ts =>
        obtain ⟨t, sc⟩ := ts
        cases hlk : ontology_terms.lookup t with
        | none => exact Or.inr (by simp [disambiguate_entity, hc, hemb, hbm, hlk])
        | some cs =>
          exact Or.inl ⟨t, cs.1, cs.2, by simp [disambiguate_entity, hc, hemb, hbm, hlk]⟩

/-- C5: a pair whose comparison fails because either operand has zero norm is
skipped by the ranker — the comparison yields no value (no division by zero),
the pair contributes nothing to the similarities dictionary — and when every
pair fails the engine returns the all-`None` triple (the `NoMatchFound`
outcome) rather than an error or an invalid score. -/
theorem zero_norm_pairs_skipped (cand : Vec) (c1 c2 : Cache) (k : String)
    (v : Vec) (embed : String → Option Vec) (ontology_terms : Ontology)
    (cache : Cache) (term context : String) :
    ((dot cand cand = 0 ∨ dot v v = 0) → cosine_similarity cand v = none) ∧
      ((dot cand cand = 0 ∨ dot v v = 0) →
        similarities cand (c1 ++ (k, v) :: c2) =
          similarities cand c1 ++ similarities cand c2) ∧
      (embed (candidate_text term context) = some cand →
        similarities cand cache = [] →
        disambiguate_entity embed ontology_terms cache term context =
          (none, none, none)) := by
  have hfail : (dot cand cand = 0 ∨ dot v v = 0) → cosine_similarity cand v = none := by
    intro h
    unfold cosine_similarity
    exact if_pos h
  refine ⟨hfail, ?_, ?_⟩
  · intro h
    rw [similarities_append, similarities_cons_none cand k v c2 (hfail h)]
  · intro hemb hsim
    have hbm : best_match cand cache = none := by
      unfold best_match
      rw [hsim]
      rfl
    by_cases hc : cache = []
    · subst hc
      simp [disambiguate_entity]
    · simp [disambiguate_entity, hc, hemb, hbm]

theorem zero_norm_pairs_skipped_witness :
    (cosine_similarity [(0:ℚ)] [(1:ℚ)] = none) ∧
      (similarities [(0:ℚ)] ([("Z", [(0:ℚ)])] ++ ("B", [(1:ℚ)]) :: []) =
        similarities [(0:ℚ)] [("Z", [(0:ℚ)])] ++ similarities [(0:ℚ)] []) ∧
      disambiguate_entity (fun _ => some [(0:ℚ)])
        [("B", ("code", "sys"))] [("B", [(1:ℚ)])] "B" "" = (none, none, none) := by
  obtain ⟨h1, h2, h3⟩ := zero_norm_pairs_skipped [(0:ℚ)] [("Z", [(0:ℚ)])] []
    "B" [(1:ℚ)] (fun _ => some [(0:ℚ)]) [("B", ("code", "sys"))]
    [("B", [(1:ℚ)])] "B" ""
  have hz : dot [(0:ℚ)] [(0:ℚ)] = 0 ∨ dot [(1:ℚ)] [(1:ℚ)] = 0 := by
    left
    norm_num [dot]
  refine ⟨h1 hz, h2 hz, h3 rfl ?_⟩
  have hc : cosine_similarity [(0:ℚ)] [(1:ℚ)] = none := h1 hz
  rw [similarities_cons_none [(0:ℚ)] "B" [(1:ℚ)] [] hc]
  rfl

/-! Facts about dictionary insertion and the warm-up loop. -/

theorem mem_dictInsert (p : String × Vec) (k : String) (v : Vec) (d : Cache)
    (h : p ∈ dictInsert k v d) : p ∈ d ∨ p = (k, v) := by
  unfold dictInsert at h
  split at h
  · obtain ⟨q, hq, hf⟩ := List.mem_map.mp h
    by_cases he : q.1 = k
    · right
      rw [← hf]
      simp [he]
    · left
      rw [← hf]
      simpa [he] using hq
  · rcases List.mem_append.mp h with h1 | h1
    · exact Or.inl h1
    · exact Or.inr (List.mem_singleton.mp h1)

theorem key_mem_dictInsert_self (k : String) (v : Vec) (d : Cache) :
    k ∈ (dictInsert k v d).map Prod.fst := by
  unfold dictInsert
  split
  · rename_i hany
    obtain ⟨q, hq1, hq2⟩ := List.any_eq_true.mp hany
    have hfq : (fun p => if p.1 = k then (k, v) else p) q = (k, v) := by
      simp [of_decide_eq_true hq2]
    have hmem : (k, v) ∈ d.map (fun p => if p.1 = k then (k, v) else p) :=
      List.mem_map.mpr ⟨q, hq1, hfq⟩
    exact List.mem_map.mpr ⟨(k, v), hmem, rfl⟩
  · simp

theorem key_mem_dictInsert_of_mem (k' k : String) (v : Vec) (d : Cache)
    (h : k' ∈ d.map Prod.fst) : k' ∈ (dictInsert k v d).map Prod.fst := by
  unfold dictInsert
  split
  · obtain ⟨q, hq, hf⟩ := List.mem_map.mp h
    by_cases he : q.1 = k
    · have hfq : (fun p => if p.1 = k then (k, v) else p) q = (k, v) := by simp [he]
      have hmem : (k, v) ∈ d.map (fun p => if p.1 = k then (k, v) else p) :=
        List.mem_map.mpr ⟨q, hq, hfq⟩
      exact List.mem_map.mpr ⟨(k, v), hmem, by rw [← hf, he]⟩
    · have hfq : (fun p => if p.1 = k then (k, v) else p) q = q := by simp [he]
      have hmem : q ∈ d.map (fun p => if p.1 = k then (k, v) else p) :=
        List.mem_map.mpr ⟨q, hq, hfq⟩
      exact List.mem_map.mpr ⟨q, hmem, hf⟩
  · rw [List.map_append]
    exact List.mem_append_left _ h

theorem dictInsert_eq_self (k : String) (v : Vec) (d : Cache)
    (hval : ∀ w, (k, w) ∈ d → w = v) (hkey : k ∈ d.map Prod.fst) :
    dictInsert k v d = d := by
  unfold dictInsert
  have hany : d.any (fun p => p.1 = k) = true := by
    obtain ⟨q, hq, hf⟩ := List.mem_map.mp hkey
    exact List.any_eq_true.mpr ⟨q, hq, decide_eq_true hf⟩
  rw [if_pos hany]
  have hid : ∀ p ∈ d, (fun p => if p.1 = k then (k, v) else p) p = p := by
    intro p hp
    by_cases he : p.1 = k
    · have hv : p.2 = v := hval p.2 (by rw [← he]; exact hp)
      have h1 : (fun p => if p.1 = k then (k, v) else p) p = (k, v) := by simp [he]
      rw [h1, ← hv, ← he]
    · simp [he]
  calc d.map (fun p => if p.1 = k then (k, v) else p) = d.map id :=
        List.map_congr_left hid
    _ = d := List.map_id d

theorem mem_build_ontology_embeddings (embed : String → Option Vec)
    (terms : List String) :
    ∀ (init : Cache) (p : String × Vec),
      p ∈ build_ontology_embeddings embed terms init →
        p ∈ init ∨ (p.1 ∈ terms ∧ embed p.1 = some p.2) := by
  induction terms with
  | nil =>
    intro init p h
    exact Or.inl h
  | cons t ts ih =>
    intro init p h
    unfold build_ontology_embeddings at h
    rw [List.foldl_cons] at h
    cases het : embed t with
    | none =>
      rw [het] at h
      rcases ih init p h with h1 | h1
      · exact Or.inl h1
      · exact Or.inr ⟨List.mem_cons_of_mem t h1.1, h1.2⟩
    | some v =>
      rw [het] at h
      rcases ih (dictInsert t v init) p h with h1 | h1
      · rcases mem_dictInsert p t v init h1 with h2 | h2
        · exact Or.inl h2
        · refine Or.inr ⟨?_, ?_⟩
          · rw [h2]
            exact List.mem_cons_self t ts
          · rw [h2]
            simpa [h2] using het
      · exact Or.inr ⟨List.mem_cons_of_mem t h1.1, h1.2⟩

theorem key_mem_build_of_mem (embed : String → Option Vec) (terms : List String) :
    ∀ (init : Cache) (k : String), k ∈ init.map Prod.fst →
      k ∈ (build_ontology_embeddings embed terms init).map Prod.fst := by
  induction terms with
  | nil =>
    intro init k h
    exact h
  | cons t ts ih =>
    intro init k h
    unfold build_ontology_embeddings
    rw [List.foldl_cons]
    cases het : embed t with
    | none => exact ih init k h
    | some v => exact ih (dictInsert t v init) k (key_mem_dictInsert_of_mem k t v init h)

theorem key_mem_build (embed : String → Option Vec) (terms : List String) :
    ∀ (init : Cache) (t : String) (v : Vec), t ∈ terms → embed t = some v →
      t ∈ (build_ontology_embeddings embed terms init).map Prod.fst := by
  induction terms with
  | nil =>
    intro init t v h
    exact absurd h (List.not_mem_nil t)
  | cons u ts ih =>
    intro init t v hmem hemb
    unfold build_ontology_embeddings
    rw [List.foldl_cons]
    rcases List.mem_cons.mp hmem with h1 | h1
    · subst h1
      rw [hemb]
      exact key_mem_build_of_mem embed ts (dictInsert t v init) t
        (key_mem_dictInsert_self t v init)
    · cases het : embed u with
      | none => exact ih init t v h1 hemb
      | some w => exact ih (dictInsert u w init) t v h1 hemb

theorem foldl_fixed {α β : Type} (f : β → α → β) (c : β) (l : List α)
    (h : ∀ x ∈ l, f c x = c) : l.foldl f c = c := by
  induction l with
  | nil => rfl
  | cons x xs ih =>
    rw [List.foldl_cons, h x (List.mem_cons_self x xs)]
    exact ih (fun y hy => h y (List.mem_cons_of_mem x hy))

theorem build_traced_fst_eq (embed : String → Option Vec) (terms : List String) :
    ∀ (init : Cache) (calls : List String),
      (terms.foldl (fun acc t =>
        match embed t with
        | some v => (dictInsert t v acc.1, acc.2 ++ [t])
        | none => (acc.1, acc.2 ++ [t])) (init, calls)).1 =
        build_ontology_embeddings embed terms init := by
  induction terms with
  | nil =>
    intro init calls
    rfl
  | cons t ts ih =>
    intro init calls
    unfold build_ontology_embeddings
    rw [List.foldl_cons, List.foldl_cons]
    cases het : embed t with
    | none => exact ih init (calls ++ [t])
    | some v => exact ih (dictInsert t v init) (calls ++ [t])

theorem build_traced_calls_all (embed : String → Option Vec) (terms : List String) :
    ∀ (init : Cache) (calls : List String),
      (terms.foldl (fun acc t =>
        match embed t with
        | some v => (dictInsert t v acc.1, acc.2 ++ [t])
        | none => (acc.1, acc.2 ++ [t])) (init, calls)).2 = calls ++ terms := by
  induction terms with
  | nil =>
    intro init calls
    simp
  | cons t ts ih =>
    intro init calls
    rw [List.foldl_cons]
    cases het : embed t with
    | none => exact (ih init (calls ++ [t])).trans (by simp)
    | some v => exact (ih (dictInsert t v init) (calls ++ [t])).trans (by simp)

/-- Counterexample to C7: the warm-up loop has no membership check, so a
re-run calls the embedding provider again for a term that is already cached
("A" is present in the cache produced by the first run, yet the second run's
provider-call trace still contains "A"). -/
theorem warmup_reembeds_cached_term :
    ("A", [(1:ℚ)]) ∈ build_ontology_embeddings (fun _ => some [(1:ℚ)]) ["A"] [] ∧
      (build_ontology_embeddings_traced (fun _ => some [(1:ℚ)]) ["A"]
        (build_ontology_embeddings (fun _ => some [(1:ℚ)]) ["A"] [])).2 = ["A"] := by
  constructor
  · show ("A", [(1:ℚ)]) ∈ dictInsert "A" [(1:ℚ)] []
    simp [dictInsert]
  · rfl

/-- C7 amended: with a deterministic provider (a function), re-running the
warm-up loop on the cache produced by a first run leaves the cache unchanged
(identical size and content); however the loop re-embeds every term — it calls
the provider once per ontology term on every run, including terms already
present (see the counterexample) — rather than retrying only missing terms. -/
theorem build_ontology_embeddings_idempotent (embed : String → Option Vec)
    (terms : List String) :
    build_ontology_embeddings embed terms
        (build_ontology_embeddings embed terms []) =
      build_ontology_embeddings embed terms [] := by
  apply foldl_fixed
  intro t ht
  cases het : embed t with
  | none => rfl
  | some v =>
    show dictInsert t v (build_ontology_embeddings embed terms []) =
      build_ontology_embeddings embed terms []
    apply dictInsert_eq_self
    · intro w hw
      rcases mem_build_ontology_embeddings embed terms [] (t, w) hw with h1 | h1
      · exact absurd h1 (List.not_mem_nil _)
      · have : some w = some v := by rw [← h1.2, het]
        exact Option.some.inj this
    · exact key_mem_build embed terms [] t v ht het

theorem lookup_of_mem_keys (l : Ontology) (t : String)
    (h : t ∈ l.map Prod.fst) : ∃ cs, l.lookup t = some cs := by
  induction l with
  | nil => exact absurd h (by simp)
  | cons p rest ih =>
    obtain ⟨k, v⟩ := p
    rw [List.map_cons, List.mem_cons] at h
    by_cases he : t = k
    · exact ⟨v, by simp [List.lookup, he]⟩
    · have h2 : t ∈ rest.map Prod.fst := by
        rcases h with h1 | h1
        · exact absurd h1 he
        · exact h1
      obtain ⟨cs, hcs⟩ := ih h2
      have hbeq : (t == k) = false := beq_eq_false_iff_ne.mpr he
      exact ⟨cs, by simp [List.lookup, hbeq, hcs]⟩

/-- C8: every key of the cache built by warm-up from the ontology's canonical
terms is itself a canonical term of the ontology store (no orphan cache
entries), and consequently the term selected by the ranker over that cache can
always be mapped back through the ontology store: the lookup of line 123
succeeds.  Queries never mutate the cache or the store in the source, so the
invariant persists across disambiguation calls. -/
theorem cache_keys_sound (embed : String → Option Vec) (ont : Ontology)
    (cand : Vec) (t : String) (s : ℝ) :
    (∀ p ∈ build_ontology_embeddings embed (ont.map Prod.fst) [],
        p.1 ∈ ont.map Prod.fst) ∧
      (best_match cand (build_ontology_embeddings embed (ont.map Prod.fst) []) =
          some (t, s) → ∃ cs, ont.lookup t = some cs) := by
  have hkeys : ∀ p ∈ build_ontology_embeddings embed (ont.map Prod.fst) [],
      p.1 ∈ ont.map Prod.fst := by
    intro p hp
    rcases mem_build_ontology_embeddings embed (ont.map Prod.fst) [] p hp with h1 | h1
    · exact absurd h1 (List.not_mem_nil _)
    · exact h1.1
  refine ⟨hkeys, ?_⟩
  intro hbm
  have hspec := argmaxFirst_spec _ _ hbm
  obtain ⟨v, hv, _⟩ := (mem_similarities cand _ t s).mp hspec.1
  exact lookup_of_mem_keys ont t (hkeys (t, v) hv)

theorem best_match_single_A :
    best_match [(1:ℚ)] ([("A", [(1:ℚ)])] : Cache) = some ("A", 1) := by
  have hcos : cosine_similarity [(1:ℚ)] [(1:ℚ)] = some 1 :=
    cosine_similarity_self [(1:ℚ)] (by norm_num [dot])
  unfold best_match
  rw [similarities_cons_some [(1:ℚ)] "A" [(1:ℚ)] [] 1 hcos]
  rfl

theorem cache_keys_sound_witness :
    ∃ cs, ([("A", ("c", "s"))] : Ontology).lookup "A" = some cs := by
  apply (cache_keys_sound (fun _ => some [(1:ℚ)]) [("A", ("c", "s"))]
    [(1:ℚ)] "A" 1).2
  have hb : build_ontology_embeddings (fun _ => some [(1:ℚ)])
      (([("A", ("c", "s"))] : Ontology).map Prod.fst) [] = [("A", [(1:ℚ)])] := rfl
  rw [hb]
  exact best_match_single_A

theorem best_match_of_split (cand : Vec) (c1 c2 : Cache) (t : String) (v : Vec)
    (s : ℝ) (hcos : cosine_similarity cand v = some s)
    (hpre : ∀ k u, (k, u) ∈ c1 → ∀ s', cosine_similarity cand u = some s' → s' < s)
    (hpost : ∀ k u, (k, u) ∈ c2 → ∀ s', cosine_similarity cand u = some s' → s' ≤ s) :
    best_match cand (c1 ++ (t, v) :: c2) = some (t, s) := by
  unfold best_match
  rw [similarities_append, similarities_cons_some cand t v c2 s hcos]
  apply argmaxFirst_first
  · intro q hq
    obtain ⟨k, s'⟩ := q
    obtain ⟨u, hu, hc⟩ := (mem_similarities cand c1 k s').mp hq
    exact hpre k u hu s' hc
  · intro q hq
    obtain ⟨k, s'⟩ := q
    obtain ⟨u, hu, hc⟩ := (mem_similarities cand c2 k s').mp hq
    exact hpost k u hu s' hc

/-- C6: the engine is modelled as a pure function of its inputs, so two runs
on identical inputs necessarily return the same matched term; this theorem
pins down which term that is when two cached entries tie at the maximum
score — CPython `max` over an insertion-ordered dict keeps the first key among
ties, so the engine selects the tied entry that was cached first (`t1`), on
every run. -/
theorem disambiguate_tie_break_first (embed : String → Option Vec)
    (ont : Ontology) (term context : String) (cand : Vec)
    (c1 c2 c3 : Cache) (t1 : String) (v1 : Vec) (t2 : String) (v2 : Vec)
    (s : ℝ) (code sys : String)
    (hemb : embed (candidate_text term context) = some cand)
    (h1 : cosine_similarity cand v1 = some s)
    (_h2 : cosine_similarity cand v2 = some s)
    (hpre : ∀ k u, (k, u) ∈ c1 → ∀ s', cosine_similarity cand u = some s' → s' < s)
    (hpost : ∀ k u, (k, u) ∈ c2 ++ (t2, v2) :: c3 → ∀ s',
      cosine_similarity cand u = some s' → s' ≤ s)
    (hlk : ont.lookup t1 = some (code, sys)) :
    disambiguate_entity embed ont (c1 ++ (t1, v1) :: (c2 ++ (t2, v2) :: c3))
      term context = (some t1, some code, some sys) := by
  have hbm : best_match cand (c1 ++ (t1, v1) :: (c2 ++ (t2, v2) :: c3)) =
      some (t1, s) :=
    best_match_of_split cand c1 (c2 ++ (t2, v2) :: c3) t1 v1 s h1 hpre hpost
  have hne : c1 ++ (t1, v1) :: (c2 ++ (t2, v2) :: c3) ≠ [] := by simp
  simp [disambiguate_entity, hne, hemb, hbm, hlk]

theorem disambiguate_tie_break_first_witness :
    disambiguate_entity (fun _ => some [(1:ℚ)])
      [("A", ("c", "s")), ("B", ("c2", "s2"))]
      ([] ++ ("A", [(1:ℚ)]) :: ([] ++ ("B", [(1:ℚ)]) :: []))
      "A" "" = (some "A", some "c", some "s") := by
  have hcos : cosine_similarity [(1:ℚ)] [(1:ℚ)] = some 1 :=
    cosine_similarity_self [(1:ℚ)] (by norm_num [dot])
  exact disambiguate_tie_break_first (fun _ => some [(1:ℚ)])
    [("A", ("c", "s")), ("B", ("c2", "s2"))] "A" "" [(1:ℚ)]
    [] [] [] "A" [(1:ℚ)] "B" [(1:ℚ)] 1 "c" "s"
    rfl hcos hcos
    (fun k u h => absurd h (List.not_mem_nil _))
    (fun k u _ s' hc => cosine_similarity_le_one [(1:ℚ)] u s' hc)
    (by simp [List.lookup])

/-- Counterexample to C2: a deterministic provider embedding every text to the
same vector caches both "A" and "B" successfully during warm-up; then
disambiguating the cached term "B" with empty context returns matched term
"A" — the first key among the tied maximal scores — not "B". -/
theorem self_match_counterexample :
    ("B", [(1:ℚ)]) ∈
        build_ontology_embeddings (fun _ => some [(1:ℚ)]) ["A", "B"] [] ∧
      disambiguate_entity (fun _ => some [(1:ℚ)])
        [("A", ("c1", "s1")), ("B", ("c2", "s2"))]
        (build_ontology_embeddings (fun _ => some [(1:ℚ)]) ["A", "B"] [])
        "B" "" = (some "A", some "c1", some "s1") ∧
      "A" ≠ "B" := by
  have hcache : build_ontology_embeddings (fun _ => some [(1:ℚ)]) ["A", "B"] [] =
      [("A", [(1:ℚ)]), ("B", [(1:ℚ)])] := by
    show dictInsert "B" [(1:ℚ)] (dictInsert "A" [(1:ℚ)] []) = _
    simp [dictInsert]
  have hcos : cosine_similarity [(1:ℚ)] [(1:ℚ)] = some 1 :=
    cosine_similarity_self [(1:ℚ)] (by norm_num [dot])
  have hbm : best_match [(1:ℚ)] [("A", [(1:ℚ)]), ("B", [(1:ℚ)])] =
      some ("A", 1) := by
    have h := best_match_of_split [(1:ℚ)] [] [("B", [(1:ℚ)])] "A" [(1:ℚ)] 1 hcos
      (fun k u h => absurd h (List.not_mem_nil _))
      (fun k u _ s' hc => cosine_similarity_le_one [(1:ℚ)] u s' hc)
    simpa using h
  refine ⟨?_, ?_, by decide⟩
  · rw [hcache]
    simp
  · rw [hcache]
    simp [disambiguate_entity, candidate_text, hbm, List.lookup]

/-- C2 amended: for a term cached during warm-up with a vector of nonzero
norm, if the provider is deterministic (returns the cached vector for the
term again) and no term cached earlier ties at or exceeds cosine similarity 1
with that vector, then `disambiguate_entity(term, "")` succeeds with
`matched_term = term` and the ranker's selected score is exactly 1.  (Without
the no-earlier-tie condition the engine returns the first tied key instead —
see the counterexample.) -/
theorem disambiguate_self_match (embed : String → Option Vec) (ont : Ontology)
    (pre post : Cache) (term : String) (v : Vec) (code sys : String)
    (hdet : embed term = some v)
    (hnz : dot v v ≠ 0)
    (hpre : ∀ k u, (k, u) ∈ pre → ∀ s', cosine_similarity v u = some s' → s' < 1)
    (hlk : ont.lookup term = some (code, sys)) :
    disambiguate_entity embed ont (pre ++ (term, v) :: post) term "" =
        (some term, some code, some sys) ∧
      best_match v (pre ++ (term, v) :: post) = some (term, 1) := by
  have hcos : cosine_similarity v v = some 1 := cosine_similarity_self v hnz
  have hpost : ∀ k u, (k, u) ∈ post → ∀ s',
      cosine_similarity v u = some s' → s' ≤ 1 :=
    fun k u _ s' hc => cosine_similarity_le_one v u s' hc
  have hbm : best_match v (pre ++ (term, v) :: post) = some (term, 1) :=
    best_match_of_split v pre post term v 1 hcos hpre hpost
  have hne : pre ++ (term, v) :: post ≠ [] := by simp
  have hemb : embed (candidate_text term "") = some v := by
    show embed term = some v
    exact hdet
  exact ⟨by simp [disambiguate_entity, hne, hemb, hbm, hlk], hbm⟩

theorem disambiguate_self_match_witness :
    disambiguate_entity (fun _ => some [(1:ℚ)]) [("A", ("c", "s"))]
        ([] ++ ("A", [(1:ℚ)]) :: []) "A" "" = (some "A", some "c", some "s") ∧
      best_match [(1:ℚ)] ([] ++ ("A", [(1:ℚ)]) :: []) = some ("A", 1) :=
  disambiguate_self_match (fun _ => some [(1:ℚ)]) [("A", ("c", "s"))] [] []
    "A" [(1:ℚ)] "c" "s" rfl (by norm_num [dot])
    (fun k u h => absurd h (List.not_mem_nil _))
    (by simp [List.lookup])
